import Mathlib

/-!
Verification of the `inspect` package: a Go library for manipulating untyped
configuration trees (JSON-like values) and moving data between untyped trees
and statically typed structures.

The embedding models Go runtime values as seen through `reflect`:
`GoVal.invalid` is the zero `reflect.Value` (obtained e.g. from `Elem` of a
nil pointer or the content of a nil interface), `GoVal.ptr` a pointer value
(`ptr invalid` is a nil pointer), `GoVal.iface` a value of interface kind
(as produced by `Value.MapIndex` on a `map[string]interface{}`), and
`GoVal.structV` a struct value carrying its type name and field values.
Documented panics of the `reflect` package (such as `Value.Type` or
`Value.Set` on the zero Value) are modelled as explicit `panicked` outcomes.
-/

/-- A Go runtime value as classified by `reflect.Value.Kind`. Sequences are
modelled as `[]interface{}` (the only slice shape produced by JSON decoding)
and mappings as `map[string]interface{}` association lists. -/
inductive GoVal where
  | invalid : GoVal
  | str : String → GoVal
  | num : Int → GoVal
  | boolV : Bool → GoVal
  | slice : List GoVal → GoVal
  | mapV : List (String × GoVal) → GoVal
  | structV : String → List GoVal → GoVal
  | ptr : GoVal → GoVal
  | iface : GoVal → GoVal

/-- A `map[string]interface{}` value: association list from string keys to
values. Go map iteration order is unspecified; the list order stands in for
one arbitrary iteration order. -/
abbrev GoAssoc := List (String × GoVal)

/-- Go map indexing `m[k]`: the value stored at key `k`, if present. -/
def lookupKey (m : GoAssoc) (k : String) : Option GoVal :=
  match m with
  | [] => none
  | (k', v) :: rest => if k' = k then some v else lookupKey rest k

/-- Go map membership test `_, ok := m[k]`. -/
def hasKey (m : GoAssoc) (k : String) : Bool :=
  match m with
  | [] => false
  | (k', _) :: rest => k' = k || hasKey rest k

mutual

/-- Embeds the first loop of Go `Merge` (`for k, av := range a`): each entry
of `a` contributes at most one entry to the result, as computed by
`mergeEntry`. -/
def mergeLoop (b : GoAssoc) : GoAssoc → GoAssoc
  | [] => []
  | (k, av) :: rest =>
    match mergeEntry b k av with
    | some v => (k, v) :: mergeLoop b rest
    | none => mergeLoop b rest

/-- Embeds the body of Go `Merge`'s first loop for a single key `k` with
value `av` from `a`: the value stored into `result[k]`, or `none` when the
loop body stores nothing for this key. The nested branch for two mappings
inlines the recursive `Merge(avm, bvm)` call (see `Merge` and
`mergeEntry_map_map`); the slice branch mirrors the source exactly: when
`av` is a slice and `k` is absent from `b`, no assignment to `result[k]`
is made. -/
def mergeEntry (b : GoAssoc) (k : String) (av : GoVal) : Option GoVal :=
  match av with
  | .mapV avm =>
    match lookupKey b k with
    | some (.mapV bvm) =>
      some (.mapV (mergeLoop bvm avm ++ bvm.filter (fun kv => !(hasKey avm kv.1))))
    | some bv => some bv
    | none => some av
  | .slice axs =>
    match lookupKey b k with
    | some (.slice bxs) => some (.slice (axs ++ bxs))
    | some bv => some bv
    | none => none
  | _ =>
    match lookupKey b k with
    | some bv => some bv
    | none => some av

end

/-- Embeds Go `Merge(a, b map[string]interface{})`: the first loop processes
the entries of `a` (`mergeLoop`), the second loop (`for k, bv := range b`)
adds the entries of `b` whose key is absent from `a`. -/
def Merge (a b : GoAssoc) : GoAssoc :=
  mergeLoop b a ++ b.filter (fun kv => !(hasKey a kv.1))

/-- The inlined nested-mapping branch of `mergeEntry` is exactly the
recursive `Merge(avm, bvm)` call of the source. -/
theorem mergeEntry_map_map (b : GoAssoc) (k : String) (avm bvm : GoAssoc)
    (hb : lookupKey b k = some (.mapV bvm)) :
    mergeEntry b k (.mapV avm) = some (.mapV (Merge avm bvm)) := by
  simp [mergeEntry, Merge, hb]

theorem hasKey_of_lookupKey {m : GoAssoc} {k : String} {v : GoVal}
    (h : lookupKey m k = some v) : hasKey m k = true := by
  induction m with
  | nil => simp [lookupKey] at h
  | cons kv rest ih =>
    obtain ⟨k', v'⟩ := kv
    by_cases hk : k' = k
    · simp [hasKey, hk]
    · simp only [lookupKey, if_neg hk] at h
      simp [hasKey, hk, ih h]

theorem lookupKey_append (xs ys : GoAssoc) (k : String) :
    lookupKey (xs ++ ys) k =
      match lookupKey xs k with
      | some v => some v
      | none => lookupKey ys k := by
  induction xs with
  | nil => simp [lookupKey]
  | cons kv rest ih =>
    obtain ⟨k', v'⟩ := kv
    by_cases hk : k' = k
    · simp [lookupKey, hk]
    · simp [lookupKey, hk, ih]

theorem lookupKey_filter_none {b : GoAssoc} (a : GoAssoc) {k : String}
    (ha : hasKey a k = true) :
    lookupKey (b.filter (fun kv => !(hasKey a kv.1))) k = none := by
  induction b with
  | nil => simp [lookupKey]
  | cons kv rest ih =>
    obtain ⟨k', v'⟩ := kv
    by_cases hk : k' = k
    · subst hk
      simp [List.filter, ha, ih]
    · by_cases hfilter : hasKey a k' = true
      · simp [List.filter, hfilter, ih]
      · simp only [Bool.not_eq_true] at hfilter
        simp [List.filter, hfilter, lookupKey, hk, ih]

/-- Go maps have no duplicate keys; association lists standing in for a
`map[string]interface{}` satisfy this invariant. -/
def NodupKeys (m : GoAssoc) : Prop :=
  m.Pairwise (fun p q => p.1 ≠ q.1)

theorem hasKey_false_of_forall {m : GoAssoc} {k : String}
    (h : ∀ q ∈ m, q.1 ≠ k) : hasKey m k = false := by
  induction m with
  | nil => simp [hasKey]
  | cons kv rest ih =>
    simp only [hasKey, Bool.or_eq_false_iff, decide_eq_false_iff_not]
    exact ⟨h kv (by simp), ih (fun q hq => h q (by simp [hq]))⟩

theorem lookupKey_mergeLoop_none (b : GoAssoc) {a : GoAssoc} {k : String}
    (ha : hasKey a k = false) :
    lookupKey (mergeLoop b a) k = none := by
  induction a with
  | nil => simp [mergeLoop, lookupKey]
  | cons kv rest ih =>
    obtain ⟨k', v'⟩ := kv
    simp only [hasKey, Bool.or_eq_false_iff, decide_eq_false_iff_not] at ha
    cases he : mergeEntry b k' v' with
    | some v => simp [mergeLoop, he, lookupKey, ha.1, ih ha.2]
    | none => simp [mergeLoop, he, ih ha.2]

theorem lookupKey_mergeLoop (b : GoAssoc) {a : GoAssoc} {k : String} {av : GoVal}
    (hnd : NodupKeys a) (ha : lookupKey a k = some av) :
    lookupKey (mergeLoop b a) k = mergeEntry b k av := by
  induction a with
  | nil => simp [lookupKey] at ha
  | cons kv rest ih =>
    obtain ⟨k', v'⟩ := kv
    obtain ⟨hhead, hrest⟩ := List.pairwise_cons.mp hnd
    by_cases hk : k' = k
    · subst hk
      simp [lookupKey] at ha
      subst ha
      cases he : mergeEntry b k' v' with
      | some v => simp [mergeLoop, he, lookupKey]
      | none =>
        have hnone : hasKey rest k' = false :=
          hasKey_false_of_forall (fun q hq => Ne.symm (hhead q hq))
        simp [mergeLoop, he, lookupKey_mergeLoop_none b hnone]
    · simp only [lookupKey, if_neg hk] at ha
      cases he : mergeEntry b k' v' with
      | some v => simp [mergeLoop, he, lookupKey, hk, ih hrest ha]
      | none => simp [mergeLoop, he, ih hrest ha]

/-- Central lemma about `Merge`: if key `k` is bound to `av` in `a`, the
merged map binds `k` to exactly what the first loop's body computes for
`(k, av)` — in particular to nothing at all when the body makes no
assignment. -/
theorem lookupKey_merge {a : GoAssoc} (b : GoAssoc) {k : String} {av : GoVal}
    (hnd : NodupKeys a) (ha : lookupKey a k = some av) :
    lookupKey (Merge a b) k = mergeEntry b k av := by
  have hmem : hasKey a k = true := hasKey_of_lookupKey ha
  unfold Merge
  rw [lookupKey_append, lookupKey_mergeLoop b hnd ha, lookupKey_filter_none a hmem]
  cases mergeEntry b k av <;> rfl

/-- The `reflect.Kind`-style classification of a `GoVal` (Shape Inspector). -/
inductive GoKind where
  | invalidK
  | stringK
  | numK
  | boolK
  | sliceK
  | mapK
  | structK
  | ptrK
  | ifaceK
  deriving DecidableEq

/-- Embeds `reflect.ValueOf(v).Kind()` for the dynamic value held in an
`interface{}`. -/
def kindOf : GoVal → GoKind
  | .invalid => .invalidK
  | .str _ => .stringK
  | .num _ => .numK
  | .boolV _ => .boolK
  | .slice _ => .sliceK
  | .mapV _ => .mapK
  | .structV _ _ => .structK
  | .ptr _ => .ptrK
  | .iface _ => .ifaceK

/-- A value is a scalar in the sense of the merge precedence rule: neither a
mapping nor a sequence. -/
def isScalarKind : GoVal → Bool
  | .mapV _ => false
  | .slice _ => false
  | _ => true

theorem mergeEntry_some_of_mismatch {b : GoAssoc} {k : String} {av bv : GoVal}
    (hb : lookupKey b k = some bv)
    (hmm : ∀ avm bvm, ¬(av = .mapV avm ∧ bv = .mapV bvm))
    (hss : ∀ axs bxs, ¬(av = .slice axs ∧ bv = .slice bxs)) :
    mergeEntry b k av = some bv := by
  cases av <;> cases bv <;> simp_all [mergeEntry]

/-- C3: for every pair of mappings `a`, `b` and key `k` present in both,
whenever the two values' kinds differ or at least one of them is a scalar
(neither mapping nor sequence) — including mapping-vs-scalar and
sequence-vs-scalar mismatches — `Merge(a,b)[k]` equals `b[k]` and `a`'s
value is discarded. -/
theorem c3_merge_b_value_wins_on_mismatch (a b : GoAssoc) (k : String)
    (av bv : GoVal) (hnd : NodupKeys a)
    (ha : lookupKey a k = some av) (hb : lookupKey b k = some bv)
    (hmis : kindOf av ≠ kindOf bv ∨ isScalarKind av = true ∨ isScalarKind bv = true) :
    lookupKey (Merge a b) k = some bv := by
  rw [lookupKey_merge b hnd ha]
  apply mergeEntry_some_of_mismatch hb
  · rintro avm bvm ⟨rfl, rfl⟩
    rcases hmis with h | h | h
    · exact h rfl
    · simp [isScalarKind] at h
    · simp [isScalarKind] at h
  · rintro axs bxs ⟨rfl, rfl⟩
    rcases hmis with h | h | h
    · exact h rfl
    · simp [isScalarKind] at h
    · simp [isScalarKind] at h

/-- C3 witness: a string under key `k` in `a` is overridden by the number
stored under `k` in `b`. -/
theorem c3_witness :
    lookupKey (Merge [("k", GoVal.str "old")] [("k", GoVal.num 2)]) "k"
      = some (GoVal.num 2) :=
  c3_merge_b_value_wins_on_mismatch _ _ _ _ _ (by simp [NodupKeys]) rfl rfl
    (Or.inr (Or.inl rfl))

/-- C4: for every pair of mappings `a`, `b` and key `k` present in both with
sequence values, `Merge(a,b)[k]` is the concatenation of `a`'s sequence
followed by `b`'s sequence, in order, with no deduplication and no type
check beyond both values being sequences. -/
theorem c4_merge_concatenates_sequences (a b : GoAssoc) (k : String)
    (xs ys : List GoVal) (hnd : NodupKeys a)
    (ha : lookupKey a k = some (.slice xs)) (hb : lookupKey b k = some (.slice ys)) :
    lookupKey (Merge a b) k = some (.slice (xs ++ ys)) := by
  rw [lookupKey_merge b hnd ha]
  simp [mergeEntry, hb]

/-- C4 witness: the spec's example, `a["x"] = [1,2]`, `b["x"] = [3]`,
`Merge(a,b)["x"] = [1,2,3]`. -/
theorem c4_witness :
    lookupKey (Merge [("x", GoVal.slice [GoVal.num 1, GoVal.num 2])]
        [("x", GoVal.slice [GoVal.num 3])]) "x"
      = some (GoVal.slice [GoVal.num 1, GoVal.num 2, GoVal.num 3]) :=
  c4_merge_concatenates_sequences [("x", GoVal.slice [GoVal.num 1, GoVal.num 2])]
    [("x", GoVal.slice [GoVal.num 3])] "x" [GoVal.num 1, GoVal.num 2]
    [GoVal.num 3] (by simp [NodupKeys]) rfl rfl

/-- C1 (code-bug evidence): a key bound to a sequence in `a` and absent from
`b` is dropped from `Merge(a,b)` — the slice branch of the first loop never
stores `result[k]` when `k` is missing from `b` — so the key set of the
result is not the union of the key sets, and the sequence is not copied
through. -/
theorem c1_merge_drops_sequence_only_key :
    Merge [("x", GoVal.slice [GoVal.str "v"])] [] = []
    ∧ lookupKey [("x", GoVal.slice [GoVal.str "v"])] "x"
        = some (GoVal.slice [GoVal.str "v"])
    ∧ lookupKey (Merge [("x", GoVal.slice [GoVal.str "v"])] []) "x" = none :=
  ⟨rfl, rfl, rfl⟩

/-- A Go static type, as needed by the reflection in `Source` and
`toSpecificArray`. `ifaceT` is `interface{}`; `structT n` is a named struct
type (nominal identity). -/
inductive GoTy where
  | stringT : GoTy
  | numT : GoTy
  | boolT : GoTy
  | ifaceT : GoTy
  | sliceT : GoTy → GoTy
  | mapT : GoTy → GoTy
  | ptrT : GoTy → GoTy
  | structT : String → GoTy
  deriving DecidableEq

/-- Embeds `reflect.Value.Type()` on the dynamic value of an `interface{}`:
`none` when the value is the zero `reflect.Value` (calling `Type` there
panics). JSON-decoded sequences and mappings are `[]interface{}` and
`map[string]interface{}`. The type of the content of an interface-kinded
value is the dynamic type of its content. -/
def tyOf : GoVal → Option GoTy
  | .invalid => none
  | .str _ => some .stringT
  | .num _ => some .numT
  | .boolV _ => some .boolT
  | .slice _ => some (.sliceT .ifaceT)
  | .mapV _ => some (.mapT .ifaceT)
  | .structV n _ => some (.structT n)
  | .ptr v => (tyOf v).map .ptrT
  | .iface v => tyOf v

/-- Embeds `reflect.Type.AssignableTo`: identical types are assignable, and
every type is assignable to `interface{}`. -/
def assignableTo (t u : GoTy) : Bool :=
  t = u || u = .ifaceT

/-- Embeds `reflect.Type.Elem()`: defined for slice, map and pointer types;
`none` where `Elem` panics. -/
def tyElem : GoTy → Option GoTy
  | .sliceT e => some e
  | .mapT v => some v
  | .ptrT e => some e
  | _ => none

/-- Embeds the per-element unwrap of `toSpecificArray`: `if v.Kind() ==
reflect.Interface || v.Kind() == reflect.Ptr { v = v.Elem() }`. -/
def unwrapElem : GoVal → GoVal
  | .iface e => e
  | .ptr e => e
  | v => v

/-- Outcome of `toSpecificArray`: the converted elements, a type-mismatch
error carrying the expected and found types (and no field name), or a
runtime panic (from calling `Type` on the zero `reflect.Value`). -/
inductive TSARes where
  | ok : List GoVal → TSARes
  | err : GoTy → GoTy → TSARes
  | panicked : TSARes

/-- Embeds Go `toSpecificArray(array, target)` elementwise: each element is
unwrapped through at most one interface/pointer indirection, must then be
assignable to the target element type `elemTy`, and the unwrapped values
form the new slice. The error carries only the expected and found types. -/
def toSpecificArray (xs : List GoVal) (elemTy : GoTy) : TSARes :=
  match xs with
  | [] => .ok []
  | x :: rest =>
    match tyOf (unwrapElem x) with
    | none => .panicked
    | some t =>
      if assignableTo t elemTy then
        match toSpecificArray rest elemTy with
        | .ok ys => .ok (unwrapElem x :: ys)
        | r => r
      else .err elemTy t

/-- One field of a Go struct as seen by `Source`: its name, the raw `json`
tag (when present), its static type and its current value. -/
structure SField where
  name : String
  tag : Option String
  ty : GoTy
  val : GoVal

/-- Embeds the Go tag-key extraction: `p := strings.Index(s, ","); if p >
-1 { s = s[:p] }` — the prefix of the tag before the first comma (the whole
tag when it has no comma). -/
def tagKey (s : String) : String :=
  ⟨s.data.takeWhile (fun c => c != ',')⟩

/-- Embeds `v.FieldByName(n).Set(w)`: replaces the value of the first field
named `n`. -/
def setFieldByName (fs : List SField) (n : String) (w : GoVal) : List SField :=
  match fs with
  | [] => []
  | f :: rest =>
    if f.name = n then { f with val := w } :: rest
    else f :: setFieldByName rest n w

/-- The errors `Source` can return. `typeMismatchAt` embeds the
`fmt.Errorf` of the scalar path (which names the field); `typeMismatch`
embeds the `fmt.Errorf` of `toSpecificArray` (which does not). -/
inductive SourceErr where
  | notAStruct : SourceErr
  | typeMismatchAt : String → GoTy → GoTy → SourceErr
  | typeMismatch : GoTy → GoTy → SourceErr
  deriving DecidableEq

/-- Outcome of `Source`: success, an error, or a runtime panic, each
carrying the state of the record's fields at that point (the update is in
place, so fields already written stay written when a later field fails);
`notStructErr` is the `can only source structs` error, raised before any
field is touched. -/
inductive SOut where
  | ok : List SField → SOut
  | fail : List SField → SourceErr → SOut
  | panicked : List SField → SOut
  | notStructErr : SOut

/-- What the body of the `Source` field loop does for one field: skip it,
overwrite it with a value, stop with an error, or panic. -/
inductive StepRes where
  | skip : StepRes
  | setVal : GoVal → StepRes
  | failE : SourceErr → StepRes
  | panicE : StepRes

/-- Embeds one iteration of the field loop of Go `Source`. A field with no
`json` tag, or whose tag key is absent from `settings`, is skipped. A slice
or array setting goes through `toSpecificArray` against the field type's
element type (`f.Type.Elem()` — a panic when the field type has no element
type, and a `Set` panic when the built `[]E` is not assignable to the field
type); any other setting must be directly assignable to the field type,
else the field-naming type-mismatch error is returned. A `nil` setting has
kind Invalid, so `sv.Type()` panics. -/
def sourceStep (settings : GoAssoc) (f : SField) : StepRes :=
  match f.tag with
  | none => .skip
  | some tagStr =>
    match lookupKey settings (tagKey tagStr) with
    | none => .skip
    | some setting =>
      match setting with
      | .slice xs =>
        match tyElem f.ty with
        | none => .panicE
        | some e =>
          match toSpecificArray xs e with
          | .panicked => .panicE
          | .err exp fnd => .failE (.typeMismatch exp fnd)
          | .ok ys =>
            if assignableTo (.sliceT e) f.ty then .setVal (.slice ys)
            else .panicE
      | sv =>
        match tyOf sv with
        | none => .panicE
        | some t =>
          if assignableTo t f.ty then .setVal sv
          else .failE (.typeMismatchAt f.name f.ty t)

/-- Embeds the field loop of Go `Source`: iterates the struct type's fields
(first list) while updating the record state (second list) in place via
`v.FieldByName(f.Name).Set(...)`; the first error or panic aborts the loop
with the record state reached so far. -/
def sourceLoop (settings : GoAssoc) : List SField → List SField → SOut
  | [], state => .ok state
  | f :: rest, state =>
    match sourceStep settings f with
    | .skip => sourceLoop settings rest state
    | .setVal v => sourceLoop settings rest (setFieldByName state f.name v)
    | .failE e => .fail state e
    | .panicE => .panicked state

/-- The argument of `Source`: a structured record (with field metadata), a
pointer, or any other Go value. -/
inductive SVal where
  | sstruct : List SField → SVal
  | sptr : SVal → SVal
  | sval : GoVal → SVal

/-- Embeds Go `Source(i, settings)`: dereference one pointer indirection if
present, require a struct, then run the field loop on the struct's fields
(metadata and initial state both come from the record). -/
def Source (i : SVal) (settings : GoAssoc) : SOut :=
  match (match i with | .sptr p => p | v => v) with
  | .sstruct fs => sourceLoop settings fs fs
  | _ => .notStructErr

/-- The record denoted by a `Source` argument: directly a struct, or a
struct behind exactly one pointer indirection. -/
def structOf (i : SVal) : Option (List SField) :=
  match (match i with | .sptr p => p | v => v) with
  | .sstruct fs => some fs
  | _ => none

/-- The record state carried by a `Source` outcome (none when the argument
was rejected as not a struct, before any record existed). -/
def stateOf : SOut → Option (List SField)
  | .ok fs => some fs
  | .fail fs _ => some fs
  | .panicked fs => some fs
  | .notStructErr => none

theorem sourceLoop_ne_notStruct (settings : GoAssoc) (m state : List SField) :
    sourceLoop settings m state ≠ .notStructErr := by
  induction m generalizing state with
  | nil => simp [sourceLoop]
  | cons f rest ih =>
    simp only [sourceLoop]
    cases sourceStep settings f with
    | skip => exact ih state
    | setVal v => exact ih _
    | failE e => simp
    | panicE => simp

/-- C6: `Source` fails with the not-a-struct error exactly when its argument
does not denote a structured record directly or via exactly one pointer
indirection; otherwise the precondition is accepted and field processing
proceeds (producing a field-loop outcome, never the not-a-struct error). -/
theorem c6_source_requires_struct (i : SVal) (settings : GoAssoc) :
    Source i settings = .notStructErr ↔ structOf i = none := by
  cases i with
  | sstruct fs =>
    simp only [Source, structOf]
    constructor
    · intro h
      exact absurd h (sourceLoop_ne_notStruct settings fs fs)
    · intro h
      simp at h
  | sptr p =>
    cases p with
    | sstruct fs =>
      simp only [Source, structOf]
      constructor
      · intro h
        exact absurd h (sourceLoop_ne_notStruct settings fs fs)
      · intro h
        simp at h
    | sptr q => simp [Source, structOf]
    | sval v => cases v <;> simp [Source, structOf]
  | sval v => cases v <;> simp [Source, structOf]

theorem setFieldByName_get_ne {fs : List SField} {n : String} {w : GoVal}
    {j : Nat} {f : SField} (hj : fs.get? j = some f) (hne : f.name ≠ n) :
    (setFieldByName fs n w).get? j = some f := by
  induction fs generalizing j with
  | nil => simp at hj
  | cons g rest ih =>
    cases j with
    | zero =>
      simp only [List.get?] at hj
      cases hj
      simp only [setFieldByName]
      rw [if_neg hne]
      rfl
    | succ j' =>
      simp only [List.get?] at hj
      by_cases hg : g.name = n
      · simp only [setFieldByName, if_pos hg, List.get?]
        exact hj
      · simp only [setFieldByName, if_neg hg, List.get?]
        exact ih hj

/-- Fields whose loop step is a skip — and more generally any field not
named like one of the overwritten fields — survive the loop unchanged. -/
theorem sourceLoop_preserves (settings : GoAssoc) (m : List SField) :
    ∀ (state : List SField) (j : Nat) (f : SField),
    state.get? j = some f →
    (∀ g ∈ m, g.name = f.name → sourceStep settings g = .skip) →
    ∀ st, stateOf (sourceLoop settings m state) = some st → st.get? j = some f := by
  induction m with
  | nil =>
    intro state j f hj _ st hst
    simp only [sourceLoop, stateOf, Option.some.injEq] at hst
    rw [← hst]
    exact hj
  | cons g rest ih =>
    intro state j f hj hskip st hst
    simp only [sourceLoop] at hst
    cases hstep : sourceStep settings g with
    | skip =>
      rw [hstep] at hst
      exact ih state j f hj (fun g' hg' => hskip g' (by simp [hg'])) st hst
    | setVal v =>
      rw [hstep] at hst
      have hgname : g.name ≠ f.name := by
        intro heq
        have := hskip g (by simp) heq
        rw [hstep] at this
        exact StepRes.noConfusion this
      have hj' : (setFieldByName state g.name v).get? j = some f :=
        setFieldByName_get_ne hj (fun h => hgname h.symm)
      exact ih _ j f hj' (fun g' hg' => hskip g' (by simp [hg'])) st hst
    | failE e =>
      rw [hstep] at hst
      simp only [stateOf, Option.some.injEq] at hst
      rw [← hst]
      exact hj
    | panicE =>
      rw [hstep] at hst
      simp only [stateOf, Option.some.injEq] at hst
      rw [← hst]
      exact hj

theorem sourceStep_skip_of_absent {settings : GoAssoc} {f : SField}
    (h : f.tag = none ∨ ∃ t, f.tag = some t ∧ lookupKey settings (tagKey t) = none) :
    sourceStep settings f = .skip := by
  rcases h with h | ⟨t, ht, hl⟩
  · simp [sourceStep, h]
  · simp [sourceStep, ht, hl]

/-- C7: for every call `Source(recordSlot, settings)` and every field of the
record whose declared external key is absent from `settings` (and every
field with no external key at all), the field's value after the call —
whatever the call's outcome — equals its value before the call; `Source`
only overwrites fields whose key is present in `settings`. Field names of a
Go struct are distinct, which the hypothesis `hnames` records. -/
theorem c7_source_skips_absent_keys (fs : List SField) (settings : GoAssoc)
    (j : Nat) (f : SField) (st : List SField)
    (hnames : (fs.map SField.name).Nodup)
    (hj : fs.get? j = some f)
    (habsent : f.tag = none ∨ ∃ t, f.tag = some t ∧ lookupKey settings (tagKey t) = none)
    (hst : stateOf (Source (.sstruct fs) settings) = some st) :
    st.get? j = some f := by
  have hf_mem : f ∈ fs := List.get?_mem hj
  apply sourceLoop_preserves settings fs fs j f hj _ st
  · simpa [Source] using hst
  · intro g hg hname
    have hgf : g = f :=
      List.inj_on_of_nodup_map hnames hg hf_mem hname
    rw [hgf]
    exact sourceStep_skip_of_absent habsent

/-- C7 witness: a record with two fields; the field tagged `absent` keeps
its prior value while the field tagged `present` is overwritten. -/
theorem c7_witness :
    ([⟨"A", some "absent", GoTy.stringT, GoVal.str "old"⟩,
      ⟨"B", some "present", GoTy.numT, GoVal.num 9⟩] : List SField).get? 0
      = some ⟨"A", some "absent", GoTy.stringT, GoVal.str "old"⟩ :=
  c7_source_skips_absent_keys
    [⟨"A", some "absent", GoTy.stringT, GoVal.str "old"⟩,
     ⟨"B", some "present", GoTy.numT, GoVal.num 7⟩]
    [("present", GoVal.num 9)] 0
    ⟨"A", some "absent", GoTy.stringT, GoVal.str "old"⟩
    [⟨"A", some "absent", GoTy.stringT, GoVal.str "old"⟩,
     ⟨"B", some "present", GoTy.numT, GoVal.num 9⟩]
    (by simp) rfl (Or.inr ⟨"absent", rfl, rfl⟩) rfl

theorem sourceLoop_append (settings : GoAssoc) (m1 m2 state : List SField) :
    sourceLoop settings (m1 ++ m2) state =
      match sourceLoop settings m1 state with
      | .ok st1 => sourceLoop settings m2 st1
      | r => r := by
  induction m1 generalizing state with
  | nil => simp [sourceLoop]
  | cons f rest ih =>
    simp only [List.cons_append, sourceLoop]
    cases sourceStep settings f with
    | skip => exact ih state
    | setVal v => exact ih _
    | failE e => rfl
    | panicE => rfl

theorem toSpecificArray_ok {xs : List GoVal} {e : GoTy}
    (h : ∀ x ∈ xs, ∃ t, tyOf (unwrapElem x) = some t ∧ assignableTo t e = true) :
    toSpecificArray xs e = .ok (xs.map unwrapElem) := by
  induction xs with
  | nil => simp [toSpecificArray]
  | cons x rest ih =>
    obtain ⟨t, ht, hassign⟩ := h x (by simp)
    simp only [toSpecificArray, ht, hassign, if_true,
      ih (fun y hy => h y (by simp [hy])), List.map]

theorem toSpecificArray_err {good : List GoVal} {x : GoVal} {rest' : List GoVal}
    {e tx : GoTy}
    (hgood : ∀ y ∈ good, ∃ t, tyOf (unwrapElem y) = some t ∧ assignableTo t e = true)
    (hx : tyOf (unwrapElem x) = some tx) (hbad : assignableTo tx e = false) :
    toSpecificArray (good ++ x :: rest') e = .err e tx := by
  induction good with
  | nil => simp [toSpecificArray, hx, hbad]
  | cons y more ih =>
    obtain ⟨t, ht, hassign⟩ := hgood y (by simp)
    have ihe := ih (fun z hz => hgood z (by simp [hz]))
    simp only [List.cons_append, toSpecificArray, ht, hassign, if_true,
      List.append_eq, ihe]

/-- C5 (amended): for a record field of static type `[]E` whose external key
maps in `settings` to a sequence, once the fields before it have been
processed without error: if every element of the sequence is assignable to
`E` after at most one interface/pointer unwrap, the field is overwritten
with a newly built `[]E` holding the converted (unwrapped) elements and the
loop proceeds with the remaining fields; if some element is not (the first
offender having found type `tx`), `Source` fails immediately with the
type-mismatch error that names the expected type `E` and the found type
`tx` — but, unlike the scalar path, not the field. -/
theorem c5_source_sequence_field (pre : List SField) (f : SField)
    (post : List SField) (settings : GoAssoc) (e : GoTy) (t : String)
    (xs : List GoVal) (st1 : List SField)
    (hty : f.ty = .sliceT e)
    (htag : f.tag = some t)
    (hset : lookupKey settings (tagKey t) = some (.slice xs))
    (hpre : sourceLoop settings pre (pre ++ f :: post) = .ok st1) :
    ((∀ x ∈ xs, ∃ tx, tyOf (unwrapElem x) = some tx ∧ assignableTo tx e = true) →
      Source (.sstruct (pre ++ f :: post)) settings
        = sourceLoop settings post
            (setFieldByName st1 f.name (.slice (xs.map unwrapElem))))
    ∧ (∀ good x rest' tx, xs = good ++ x :: rest' →
        (∀ y ∈ good, ∃ ty', tyOf (unwrapElem y) = some ty' ∧ assignableTo ty' e = true) →
        tyOf (unwrapElem x) = some tx → assignableTo tx e = false →
        Source (.sstruct (pre ++ f :: post)) settings
          = .fail st1 (.typeMismatch e tx)) := by
  have hsrc : Source (.sstruct (pre ++ f :: post)) settings
      = sourceLoop settings (f :: post) st1 := by
    simp only [Source]
    rw [sourceLoop_append, hpre]
  constructor
  · intro hall
    rw [hsrc]
    simp only [sourceLoop, sourceStep, htag, hset, hty, tyElem,
      toSpecificArray_ok hall, assignableTo]
    simp
  · intro good x rest' tx hxs hgood hx hbad
    rw [hsrc]
    subst hxs
    simp only [sourceLoop, sourceStep, htag, hset, hty, tyElem,
      toSpecificArray_err hgood hx hbad]

/-- C5 witness: a `[]string` field sourced from a sequence whose single
element arrives interface-wrapped is populated with the unwrapped string. -/
theorem c5_witness :
    Source (.sstruct [⟨"Vals", some "vals", GoTy.sliceT GoTy.stringT, GoVal.slice []⟩])
        [("vals", GoVal.slice [GoVal.iface (GoVal.str "a")])]
      = .ok [⟨"Vals", some "vals", GoTy.sliceT GoTy.stringT,
              GoVal.slice [GoVal.str "a"]⟩] := by
  have h := (c5_source_sequence_field []
      ⟨"Vals", some "vals", GoTy.sliceT GoTy.stringT, GoVal.slice []⟩ []
      [("vals", GoVal.slice [GoVal.iface (GoVal.str "a")])] GoTy.stringT "vals"
      [GoVal.iface (GoVal.str "a")]
      [⟨"Vals", some "vals", GoTy.sliceT GoTy.stringT, GoVal.slice []⟩]
      rfl rfl rfl rfl).1
      (by
        intro x hx
        simp only [List.mem_singleton] at hx
        subst hx
        exact ⟨GoTy.stringT, rfl, rfl⟩)
  simp only [List.nil_append] at h
  rw [h]
  rfl

/-- C5 counterexample to the claim as stated: sourcing a `[]string` field
from a sequence containing a number fails with the type-mismatch error of
`toSpecificArray`, which carries the expected and found types but no field
name — it is not the field-naming error the claim describes. -/
theorem c5_counterexample :
    Source (.sstruct [⟨"Vals", some "vals", GoTy.sliceT GoTy.stringT, GoVal.slice []⟩])
        [("vals", GoVal.slice [GoVal.iface (GoVal.num 1)])]
      = .fail [⟨"Vals", some "vals", GoTy.sliceT GoTy.stringT, GoVal.slice []⟩]
          (SourceErr.typeMismatch GoTy.stringT GoTy.numT)
    ∧ SourceErr.typeMismatch GoTy.stringT GoTy.numT
        ≠ SourceErr.typeMismatchAt "Vals" GoTy.stringT GoTy.numT :=
  ⟨rfl, by decide⟩

/-- A caller-supplied string handler: rewrites a string or fails with an
error (message). -/
abbrev StrHandler := String → Except String String

/-- Outcome of `inspectStringReflect` and `InspectStrings`: the transformed
value, or the (value, error) pair the Go function returns when the handler
fails — the value component is whatever `reflect.Value` the function
returned alongside the error — or a runtime panic of the `reflect`
package. -/
inductive TRes where
  | ok : GoVal → TRes
  | fail : GoVal → String → TRes
  | panicked : TRes

/-- Outcome of transforming a list of struct fields or slice elements. -/
inductive LRes where
  | ok : List GoVal → LRes
  | fail : String → LRes
  | panicked : LRes

/-- Outcome of transforming the entries of a mapping. -/
inductive MRes where
  | ok : List (String × GoVal) → MRes
  | fail : String → MRes
  | panicked : MRes

/-- Whether a value is the zero `reflect.Value` (kind Invalid). -/
def isInvalid : GoVal → Bool
  | .invalid => true
  | _ => false

mutual

/-- Embeds Go `inspectStringReflect(v, stringHandler)`. Pointer: transform
the pointee and rewrap via `reflect.New(v.Elem().Type())` — `Type` on the
zero Value (nil pointer) panics, as does `Set` with a zero Value
(interface-wrapped nil pointee). Struct: build a new struct of the same
type from the transformed fields (fresh structs are addressable, so the
unaddressable-field branch is unreachable); on a handler error return the
original value. String: apply the handler. Slice: an empty slice is
returned unchanged; otherwise build a new slice of transformed elements.
Map: build a new map of transformed entries. Interface kind: recurse into
the content (the result carries the concrete type — type narrowing). Any
other kind (including the zero Value) is returned unchanged. -/
def inspectStringReflect (h : StrHandler) : GoVal → TRes
  | .ptr e =>
    match inspectStringReflect h e with
    | .fail _ err => .fail (.ptr e) err
    | .panicked => .panicked
    | .ok rv =>
      if isInvalid e then .panicked
      else if isInvalid rv then .panicked
      else .ok (.ptr rv)
  | .structV n fs =>
    match inspectList h fs with
    | .ok rs => .ok (.structV n rs)
    | .fail err => .fail (.structV n fs) err
    | .panicked => .panicked
  | .str s =>
    match h s with
    | .ok s' => .ok (.str s')
    | .error err => .fail (.str s) err
  | .slice xs =>
    match xs with
    | [] => .ok (.slice [])
    | _ =>
      match inspectList h xs with
      | .ok rs => .ok (.slice rs)
      | .fail err => .fail (.slice xs) err
      | .panicked => .panicked
  | .mapV kvs =>
    match inspectMap h kvs with
    | .ok rs => .ok (.mapV rs)
    | .fail err => .fail (.mapV kvs) err
    | .panicked => .panicked
  | .iface e => inspectStringReflect h e
  | .invalid => .ok .invalid
  | .num n => .ok (.num n)
  | .boolV b => .ok (.boolV b)

/-- Embeds the per-element loops of the struct and slice cases: transform
each element in order; a handler error aborts; `Set` with a zero Value
result (an interface-wrapped nil) panics. -/
def inspectList (h : StrHandler) : List GoVal → LRes
  | [] => .ok []
  | x :: rest =>
    match inspectStringReflect h x with
    | .fail _ err => .fail err
    | .panicked => .panicked
    | .ok rv =>
      if isInvalid rv then .panicked
      else
        match inspectList h rest with
        | .ok rs => .ok (rv :: rs)
        | .fail err => .fail err
        | .panicked => .panicked

/-- Embeds the map case's loop over `v.MapKeys()`: transform each entry's
value; `SetMapIndex` with a zero Value result (an interface-wrapped nil)
deletes the key, so such entries are dropped from the new map. -/
def inspectMap (h : StrHandler) : List (String × GoVal) → MRes
  | [] => .ok []
  | (k, x) :: rest =>
    match inspectStringReflect h x with
    | .fail _ err => .fail err
    | .panicked => .panicked
    | .ok rv =>
      match inspectMap h rest with
      | .ok rs => if isInvalid rv then .ok rs else .ok ((k, rv) :: rs)
      | .fail err => .fail err
      | .panicked => .panicked

end

/-- Embeds Go `InspectStrings(i, handler)`: run `inspectStringReflect` on
`reflect.ValueOf(i)` — so the input is the dynamic (concrete, non-interface
kinded) value of the `interface{}` argument — and call `.Interface()` on
the returned value, which panics on the zero Value (untyped nil input). -/
def InspectStrings (h : StrHandler) (i : GoVal) : TRes :=
  match inspectStringReflect h i with
  | .ok v => if isInvalid v then .panicked else .ok v
  | .fail v err => if isInvalid v then .panicked else .fail v err
  | .panicked => .panicked

/-- Whether a value is of interface kind at the top. `reflect.ValueOf`
never yields an interface-kinded value, so `InspectStrings` inputs satisfy
`isIfaceTop i = false`. -/
def isIfaceTop : GoVal → Bool
  | .iface _ => true
  | _ => false

/-- C2 (code-bug evidence): `InspectStrings` on a typed nil pointer (such
as `(*string)(nil)`) panics — the pointer case calls
`reflect.New(v.Elem().Type())` and `Type` on the zero Value panics — and a
nil stored inside a mapping is silently dropped from the result rather
than returned unchanged. -/
theorem c2_nil_reference_not_preserved :
    InspectStrings (fun s => Except.ok s) (.ptr .invalid) = .panicked
    ∧ InspectStrings (fun s => Except.ok s) (.mapV [("a", .iface .invalid)])
        = .ok (.mapV [])
    ∧ InspectStrings (fun s => Except.ok s) (.ptr .invalid)
        ≠ .ok (.ptr .invalid) := by
  refine ⟨rfl, rfl, ?_⟩
  intro hcontra
  exact TRes.noConfusion hcontra

theorem inspectStringReflect_fail_val (h : StrHandler) (v w : GoVal) (e : String)
    (hni : isIfaceTop v = false)
    (hf : inspectStringReflect h v = .fail w e) : w = v := by
  cases v with
  | invalid => exact absurd hf (by simp [inspectStringReflect])
  | num n => exact absurd hf (by simp [inspectStringReflect])
  | boolV b => exact absurd hf (by simp [inspectStringReflect])
  | iface p => simp [isIfaceTop] at hni
  | str s =>
    simp only [inspectStringReflect] at hf
    cases hs : h s with
    | ok s' =>
      rw [hs] at hf
      exact TRes.noConfusion hf
    | error err =>
      rw [hs] at hf
      injection hf with h1 h2
      exact h1.symm
  | ptr p =>
    simp only [inspectStringReflect] at hf
    cases hr : inspectStringReflect h p with
    | fail a err =>
      rw [hr] at hf
      injection hf with h1 h2
      exact h1.symm
    | panicked =>
      rw [hr] at hf
      exact TRes.noConfusion hf
    | ok rv =>
      rw [hr] at hf
      cases he : isInvalid p <;> cases hrv : isInvalid rv <;> simp_all
  | structV n fs =>
    simp only [inspectStringReflect] at hf
    cases hr : inspectList h fs with
    | ok rs =>
      rw [hr] at hf
      exact TRes.noConfusion hf
    | fail err =>
      rw [hr] at hf
      injection hf with h1 h2
      exact h1.symm
    | panicked =>
      rw [hr] at hf
      exact TRes.noConfusion hf
  | slice xs =>
    cases xs with
    | nil => exact absurd hf (by simp [inspectStringReflect])
    | cons y ys =>
      simp only [inspectStringReflect] at hf
      cases hr : inspectList h (y :: ys) with
      | ok rs =>
        rw [hr] at hf
        exact TRes.noConfusion hf
      | fail err =>
        rw [hr] at hf
        injection hf with h1 h2
        exact h1.symm
      | panicked =>
        rw [hr] at hf
        exact TRes.noConfusion hf
  | mapV kvs =>
    simp only [inspectStringReflect] at hf
    cases hr : inspectMap h kvs with
    | ok rs =>
      rw [hr] at hf
      exact TRes.noConfusion hf
    | fail err =>
      rw [hr] at hf
      injection hf with h1 h2
      exact h1.symm
    | panicked =>
      rw [hr] at hf
      exact TRes.noConfusion hf

/-- C10: whenever `InspectStrings` returns an error, the value returned
alongside it is the original input value itself — each recursion level
propagates the untransformed original upward, so the caller holds the
unmodified input, never nil and never a mix of transformed and
untransformed nodes. The hypothesis `isIfaceTop v = false` records that
`reflect.ValueOf` never produces an interface-kinded value. -/
theorem c10_error_returns_original (h : StrHandler) (v w : GoVal) (e : String)
    (hni : isIfaceTop v = false)
    (hf : InspectStrings h v = .fail w e) : w = v := by
  unfold InspectStrings at hf
  cases hr : inspectStringReflect h v with
  | ok rv =>
    rw [hr] at hf
    cases hrv : isInvalid rv <;> simp_all
  | panicked =>
    rw [hr] at hf
    exact TRes.noConfusion hf
  | fail rv err =>
    rw [hr] at hf
    cases hrv : isInvalid rv with
    | true => simp [hrv] at hf
    | false =>
      simp [hrv] at hf
      exact hf.1 ▸ inspectStringReflect_fail_val h v _ _ hni hr

/-- C10 witness: a failing handler on a bare string input returns the
original string alongside the error. -/
theorem c10_witness : GoVal.str "a" = GoVal.str "a" :=
  c10_error_returns_original (fun _ => Except.error "e") (.str "a") (.str "a") "e"
    rfl rfl

mutual

/-- The scalar strings contained in a value, in the traversal order of
`inspectStringReflect` (depth first, fields in declaration order, slice
elements in index order, map entries in the modelled iteration order). -/
def stringsOf : GoVal → List String
  | .str s => [s]
  | .ptr e => stringsOf e
  | .iface e => stringsOf e
  | .slice xs => stringsOfList xs
  | .structV _ fs => stringsOfList fs
  | .mapV kvs => stringsOfMap kvs
  | .invalid => []
  | .num _ => []
  | .boolV _ => []

/-- The strings of a list of values, in order. -/
def stringsOfList : List GoVal → List String
  | [] => []
  | x :: rest => stringsOf x ++ stringsOfList rest

/-- The strings of a mapping's values, in entry order. -/
def stringsOfMap : List (String × GoVal) → List String
  | [] => []
  | (_, x) :: rest => stringsOf x ++ stringsOfMap rest

end

mutual

/-- A value is free of nil references: no zero `reflect.Value`, no nil
pointer and no nil interface anywhere inside it. -/
def noNil : GoVal → Bool
  | .invalid => false
  | .str _ => true
  | .num _ => true
  | .boolV _ => true
  | .ptr e => noNil e
  | .iface e => noNil e
  | .slice xs => noNilList xs
  | .structV _ fs => noNilList fs
  | .mapV kvs => noNilMap kvs

/-- Nil-freedom of a list of values. -/
def noNilList : List GoVal → Bool
  | [] => true
  | x :: rest => noNil x && noNilList rest

/-- Nil-freedom of a mapping's values. -/
def noNilMap : List (String × GoVal) → Bool
  | [] => true
  | (_, x) :: rest => noNil x && noNilMap rest

end

/-- The error of the first string (in order) on which the handler fails. -/
def firstFailure (h : StrHandler) : List String → Option String
  | [] => none
  | s :: rest =>
    match h s with
    | .error e => some e
    | .ok _ => firstFailure h rest

/-- Strips interface wrappers off the top of a value, as the interface
case of the traversal does. -/
def stripIface : GoVal → GoVal
  | .iface e => stripIface e
  | v => v

theorem firstFailure_append (h : StrHandler) (ss ts : List String) :
    firstFailure h (ss ++ ts) =
      match firstFailure h ss with
      | some e => some e
      | none => firstFailure h ts := by
  induction ss with
  | nil => simp [firstFailure]
  | cons s rest ih =>
    simp only [List.cons_append, firstFailure]
    cases h s with
    | error e => rfl
    | ok s' => exact ih

theorem isInvalid_false_of_noNil {v : GoVal} (hn : noNil v = true) :
    isInvalid v = false := by
  cases v <;> simp_all [noNil, isInvalid]

mutual

/-- If the handler fails on some string of a nil-free value, the traversal
returns the first such error together with the untransformed original
(modulo interface stripping, which only matters for interface-kinded
inputs); if the handler succeeds on all of them, the traversal returns a
transformed value (never the zero Value). -/
theorem inspectStringReflect_firstFailure (h : StrHandler) (v : GoVal)
    (hn : noNil v = true) :
    (∀ e, firstFailure h (stringsOf v) = some e →
        inspectStringReflect h v = .fail (stripIface v) e)
    ∧ (firstFailure h (stringsOf v) = none →
        ∃ w, inspectStringReflect h v = .ok w ∧ isInvalid w = false) := by
  cases v with
  | invalid => simp [noNil] at hn
  | num n =>
    constructor
    · intro e he
      simp [stringsOf, firstFailure] at he
    · intro _
      exact ⟨.num n, rfl, rfl⟩
  | boolV b =>
    constructor
    · intro e he
      simp [stringsOf, firstFailure] at he
    · intro _
      exact ⟨.boolV b, rfl, rfl⟩
  | str s =>
    constructor
    · intro e he
      cases hs : h s with
      | ok s' => simp [stringsOf, firstFailure, hs] at he
      | error err =>
        simp [stringsOf, firstFailure, hs] at he
        subst he
        simp [inspectStringReflect, hs, stripIface]
    · intro hnone
      cases hs : h s with
      | error err => simp [stringsOf, firstFailure, hs] at hnone
      | ok s' => exact ⟨.str s', by simp [inspectStringReflect, hs], rfl⟩
  | ptr p =>
    have hn' : noNil p = true := by simpa [noNil] using hn
    obtain ⟨ihf, ihk⟩ := inspectStringReflect_firstFailure h p hn'
    constructor
    · intro e he
      simp only [stringsOf] at he
      simp [inspectStringReflect, ihf e he, stripIface]
    · intro hnone
      simp only [stringsOf] at hnone
      obtain ⟨w, hw, hwinv⟩ := ihk hnone
      exact ⟨.ptr w, by
        simp [inspectStringReflect, hw, isInvalid_false_of_noNil hn', hwinv], rfl⟩
  | iface p =>
    have hn' : noNil p = true := by simpa [noNil] using hn
    obtain ⟨ihf, ihk⟩ := inspectStringReflect_firstFailure h p hn'
    constructor
    · intro e he
      simp only [stringsOf] at he
      simpa [inspectStringReflect, stripIface] using ihf e he
    · intro hnone
      simp only [stringsOf] at hnone
      obtain ⟨w, hw, hwinv⟩ := ihk hnone
      exact ⟨w, by simpa [inspectStringReflect] using hw, hwinv⟩
  | structV n fs =>
    have hn' : noNilList fs = true := by simpa [noNil] using hn
    obtain ⟨ihf, ihk⟩ := inspectList_firstFailure h fs hn'
    constructor
    · intro e he
      simp only [stringsOf] at he
      simp [inspectStringReflect, ihf e he, stripIface]
    · intro hnone
      simp only [stringsOf] at hnone
      obtain ⟨ws, hws⟩ := ihk hnone
      exact ⟨.structV n ws, by simp [inspectStringReflect, hws], rfl⟩
  | slice xs =>
    cases xs with
    | nil =>
      constructor
      · intro e he
        simp [stringsOf, stringsOfList, firstFailure] at he
      · intro _
        exact ⟨.slice [], by simp [inspectStringReflect], rfl⟩
    | cons y ys =>
      have hn' : noNilList (y :: ys) = true := by simpa [noNil] using hn
      obtain ⟨ihf, ihk⟩ := inspectList_firstFailure h (y :: ys) hn'
      constructor
      · intro e he
        simp only [stringsOf] at he
        simp [inspectStringReflect, ihf e he, stripIface]
      · intro hnone
        simp only [stringsOf] at hnone
        obtain ⟨ws, hws⟩ := ihk hnone
        exact ⟨.slice ws, by simp [inspectStringReflect, hws], rfl⟩
  | mapV kvs =>
    have hn' : noNilMap kvs = true := by simpa [noNil] using hn
    obtain ⟨ihf, ihk⟩ := inspectMap_firstFailure h kvs hn'
    constructor
    · intro e he
      simp only [stringsOf] at he
      simp [inspectStringReflect, ihf e he, stripIface]
    · intro hnone
      simp only [stringsOf] at hnone
      obtain ⟨ws, hws⟩ := ihk hnone
      exact ⟨.mapV ws, by simp [inspectStringReflect, hws], rfl⟩

/-- The list version of `inspectStringReflect_firstFailure`, for struct
fields and slice elements. -/
theorem inspectList_firstFailure (h : StrHandler) (xs : List GoVal)
    (hn : noNilList xs = true) :
    (∀ e, firstFailure h (stringsOfList xs) = some e → inspectList h xs = .fail e)
    ∧ (firstFailure h (stringsOfList xs) = none → ∃ ws, inspectList h xs = .ok ws) := by
  cases xs with
  | nil =>
    constructor
    · intro e he
      simp [stringsOfList, firstFailure] at he
    · intro _
      exact ⟨[], rfl⟩
  | cons x rest =>
    have hnx : noNil x = true := by
      simp [noNilList, Bool.and_eq_true] at hn
      exact hn.1
    have hnr : noNilList rest = true := by
      simp [noNilList, Bool.and_eq_true] at hn
      exact hn.2
    obtain ⟨vf, vk⟩ := inspectStringReflect_firstFailure h x hnx
    obtain ⟨lf, lk⟩ := inspectList_firstFailure h rest hnr
    constructor
    · intro e he
      simp only [stringsOfList] at he
      rw [firstFailure_append] at he
      cases hx : firstFailure h (stringsOf x) with
      | some e1 =>
        rw [hx] at he
        simp at he
        subst he
        simp [inspectList, vf e1 hx]
      | none =>
        rw [hx] at he
        simp at he
        obtain ⟨w, hw, hwinv⟩ := vk hx
        simp [inspectList, hw, hwinv, lf e he]
    · intro hnone
      simp only [stringsOfList] at hnone
      rw [firstFailure_append] at hnone
      cases hx : firstFailure h (stringsOf x) with
      | some e1 =>
        rw [hx] at hnone
        simp at hnone
      | none =>
        rw [hx] at hnone
        simp at hnone
        obtain ⟨w, hw, hwinv⟩ := vk hx
        obtain ⟨ws, hws⟩ := lk hnone
        exact ⟨w :: ws, by simp [inspectList, hw, hwinv, hws]⟩

/-- The mapping version of `inspectStringReflect_firstFailure`. -/
theorem inspectMap_firstFailure (h : StrHandler) (kvs : List (String × GoVal))
    (hn : noNilMap kvs = true) :
    (∀ e, firstFailure h (stringsOfMap kvs) = some e → inspectMap h kvs = .fail e)
    ∧ (firstFailure h (stringsOfMap kvs) = none → ∃ ws, inspectMap h kvs = .ok ws) := by
  cases kvs with
  | nil =>
    constructor
    · intro e he
      simp [stringsOfMap, firstFailure] at he
    · intro _
      exact ⟨[], rfl⟩
  | cons kx rest =>
    obtain ⟨k, x⟩ := kx
    have hnx : noNil x = true := by
      simp [noNilMap, Bool.and_eq_true] at hn
      exact hn.1
    have hnr : noNilMap rest = true := by
      simp [noNilMap, Bool.and_eq_true] at hn
      exact hn.2
    obtain ⟨vf, vk⟩ := inspectStringReflect_firstFailure h x hnx
    obtain ⟨mf, mk⟩ := inspectMap_firstFailure h rest hnr
    constructor
    · intro e he
      simp only [stringsOfMap] at he
      rw [firstFailure_append] at he
      cases hx : firstFailure h (stringsOf x) with
      | some e1 =>
        rw [hx] at he
        simp at he
        subst he
        simp [inspectMap, vf e1 hx]
      | none =>
        rw [hx] at he
        simp at he
        obtain ⟨w, hw, hwinv⟩ := vk hx
        simp [inspectMap, hw, hwinv, mf e he]
    · intro hnone
      simp only [stringsOfMap] at hnone
      rw [firstFailure_append] at hnone
      cases hx : firstFailure h (stringsOf x) with
      | some e1 =>
        rw [hx] at hnone
        simp at hnone
      | none =>
        rw [hx] at hnone
        simp at hnone
        obtain ⟨w, hw, hwinv⟩ := vk hx
        obtain ⟨ws, hws⟩ := mk hnone
        exact ⟨(k, w) :: ws, by simp [inspectMap, hw, hwinv, hws]⟩

end

/-- C8 (amended): for every input value free of nil references (and of
concrete, non-interface kind, as `reflect.ValueOf` guarantees) and every
handler, if the handler fails on some string anywhere inside the value,
`InspectStrings` returns the error of the first failing string (in
traversal order) and no transformed value — the value returned alongside
the error is the untransformed original input (all-or-nothing). -/
theorem c8_first_error_aborts (h : StrHandler) (v : GoVal) (e : String)
    (hn : noNil v = true) (hni : isIfaceTop v = false)
    (hfirst : firstFailure h (stringsOf v) = some e) :
    InspectStrings h v = .fail v e := by
  have hfail := (inspectStringReflect_firstFailure h v hn).1 e hfirst
  have hstrip : stripIface v = v := by
    cases v <;> simp_all [stripIface, isIfaceTop]
  rw [hstrip] at hfail
  simp [InspectStrings, hfail, isInvalid_false_of_noNil hn]

/-- C8 witness: a handler that fails on every string aborts the traversal
of a mapping holding one interface-wrapped string, returning the error for
that string alongside the untransformed original mapping. -/
theorem c8_witness :
    InspectStrings (fun s => Except.error ("bad " ++ s))
        (.mapV [("a", .iface (.str "x"))])
      = .fail (.mapV [("a", .iface (.str "x"))]) "bad x" :=
  c8_first_error_aborts (fun s => Except.error ("bad " ++ s))
    (.mapV [("a", .iface (.str "x"))]) "bad x" rfl rfl rfl

/-- C8 counterexample to the claim as stated: over all inputs the
propagation guarantee fails — in a struct whose first field is a nil
pointer and whose second field is a string the handler fails on,
`InspectStrings` panics on the nil pointer before ever reaching the string,
so the handler's error is not returned. -/
theorem c8_counterexample :
    InspectStrings (fun _ => Except.error "boom")
        (.structV "S" [.ptr .invalid, .str "x"]) = .panicked
    ∧ stringsOf (.structV "S" [.ptr .invalid, .str "x"]) = ["x"]
    ∧ (fun _ => (Except.error "boom" : Except String String)) "x"
        = Except.error "boom"
    ∧ TRes.panicked
        ≠ TRes.fail (.structV "S" [.ptr .invalid, .str "x"]) "boom" :=
  ⟨rfl, rfl, rfl, fun hcontra => TRes.noConfusion hcontra⟩

/-- A static shape for the serialization bridge: scalar types, sequences,
and structured records with externally keyed fields in declaration order. -/
inductive JTy where
  | strT : JTy
  | numT : JTy
  | boolT : JTy
  | listT : JTy → JTy
  | structT : List (String × JTy) → JTy

/-- A typed value for the serialization bridge. -/
inductive TVal where
  | tstr : String → TVal
  | tnum : Int → TVal
  | tbool : Bool → TVal
  | tlist : List TVal → TVal
  | tstruct : List (String × TVal) → TVal

/-- A node of the lossless intermediate encoding (a JSON document). -/
inductive UVal where
  | ustr : String → UVal
  | unum : Int → UVal
  | ubool : Bool → UVal
  | ulist : List UVal → UVal
  | uobj : List (String × UVal) → UVal

/-- Key lookup in an encoded object. -/
def lookupU (kvs : List (String × UVal)) (k : String) : Option UVal :=
  match kvs with
  | [] => none
  | (k', u) :: rest => if k' = k then some u else lookupU rest k

mutual

/-- Modelled from the spec: the serialization half of the bridge
(`json.Marshal`, which is standard-library code not part of this
repository) — serializes a typed value to the lossless intermediate
encoding, emitting record fields under their external keys in declaration
order. -/
def marshal : TVal → UVal
  | .tstr s => .ustr s
  | .tnum n => .unum n
  | .tbool b => .ubool b
  | .tlist xs => .ulist (marshalList xs)
  | .tstruct fs => .uobj (marshalFields fs)

/-- Serialization of a list of typed values, in order. -/
def marshalList : List TVal → List UVal
  | [] => []
  | x :: rest => marshal x :: marshalList rest

/-- Serialization of record fields, in declaration order. -/
def marshalFields : List (String × TVal) → List (String × UVal)
  | [] => []
  | (k, v) :: rest => (k, marshal v) :: marshalFields rest

end

mutual

/-- The zero value of a shape (what a field missing from the encoded input
is left at). -/
def zeroVal : JTy → TVal
  | .strT => .tstr ""
  | .numT => .tnum 0
  | .boolT => .tbool false
  | .listT _ => .tlist []
  | .structT fs => .tstruct (zeroFields fs)

/-- Zero values of record fields. -/
def zeroFields : List (String × JTy) → List (String × TVal)
  | [] => []
  | (k, t) :: rest => (k, zeroVal t) :: zeroFields rest

end

mutual

/-- Modelled from the spec: the deserialization half of the bridge
(`json.Unmarshal`, standard-library code not part of this repository) —
decodes an intermediate-encoding node into a typed slot of the given
shape, failing on a type mismatch at some path; a record field whose key
is absent from the encoded object keeps its zero value, and extra keys are
ignored. -/
def unmarshal : JTy → UVal → Except String TVal
  | .strT, .ustr s => .ok (.tstr s)
  | .numT, .unum n => .ok (.tnum n)
  | .boolT, .ubool b => .ok (.tbool b)
  | .listT e, .ulist xs =>
    match unmarshalList e xs with
    | .ok vs => .ok (.tlist vs)
    | .error err => .error err
  | .structT fs, .uobj kvs =>
    match unmarshalFields fs kvs with
    | .ok vfs => .ok (.tstruct vfs)
    | .error err => .error err
  | _, _ => .error "cannot unmarshal: type mismatch"

/-- Deserialization of sequence elements, in order. -/
def unmarshalList (e : JTy) : List UVal → Except String (List TVal)
  | [] => .ok []
  | u :: rest =>
    match unmarshal e u with
    | .error err => .error err
    | .ok v =>
      match unmarshalList e rest with
      | .ok vs => .ok (v :: vs)
      | .error err => .error err

/-- Deserialization of record fields: each declared field looks its key up
in the encoded object. -/
def unmarshalFields :
    List (String × JTy) → List (String × UVal) → Except String (List (String × TVal))
  | [], _ => .ok []
  | (k, t) :: rest, kvs =>
    match lookupU kvs k with
    | none =>
      match unmarshalFields rest kvs with
      | .ok vfs => .ok ((k, zeroVal t) :: vfs)
      | .error err => .error err
    | some u =>
      match unmarshal t u with
      | .error err => .error err
      | .ok v =>
        match unmarshalFields rest kvs with
        | .ok vfs => .ok ((k, v) :: vfs)
        | .error err => .error err

end

mutual

/-- A typed value's shape matches a type exactly: same structural kind and,
for records, the same field keys in the same order at every depth. -/
def conforms : JTy → TVal → Bool
  | .strT, .tstr _ => true
  | .numT, .tnum _ => true
  | .boolT, .tbool _ => true
  | .listT e, .tlist xs => conformsList e xs
  | .structT fs, .tstruct vfs => conformsFields fs vfs
  | _, _ => false

/-- Exact-shape conformance for sequence elements. -/
def conformsList (e : JTy) : List TVal → Bool
  | [] => true
  | x :: rest => conforms e x && conformsList e rest

/-- Exact-shape conformance for record fields (same keys, same order). -/
def conformsFields : List (String × JTy) → List (String × TVal) → Bool
  | [], [] => true
  | (k, t) :: rest, (k', v) :: vrest =>
    k = k' && conforms t v && conformsFields rest vrest
  | _, _ => false

end

/-- Whether an external key occurs among declared fields. -/
def hasKeyJ (fs : List (String × JTy)) (k : String) : Bool :=
  match fs with
  | [] => false
  | (k', _) :: rest => k' = k || hasKeyJ rest k

/-- Record fields carry distinct external keys. -/
def distinctKeysJ : List (String × JTy) → Bool
  | [] => true
  | (k, _) :: rest => !(hasKeyJ rest k) && distinctKeysJ rest

mutual

/-- A shape is well formed: every record in it declares distinct external
keys (what the Go type system and `encoding/json` field resolution
guarantee). -/
def wellFormedTy : JTy → Bool
  | .strT => true
  | .numT => true
  | .boolT => true
  | .listT e => wellFormedTy e
  | .structT fs => distinctKeysJ fs && wellFormedFields fs

/-- Well-formedness of declared fields. -/
def wellFormedFields : List (String × JTy) → Bool
  | [] => true
  | (_, t) :: rest => wellFormedTy t && wellFormedFields rest

end

/-- Field-by-field connection between declared fields, conforming values
and an encoded object: each declared key looks up to the serialization of
the corresponding value. -/
def lookupAligned :
    List (String × JTy) → List (String × TVal) → List (String × UVal) → Prop
  | [], [], _ => True
  | (k, _) :: rest, (k', v) :: vrest, kvs =>
    k = k' ∧ lookupU kvs k = some (marshal v) ∧ lookupAligned rest vrest kvs
  | _, _, _ => False

theorem lookupAligned_mono {fs : List (String × JTy)} {vfs : List (String × TVal)}
    {kvs : List (String × UVal)} {k : String} (u : UVal)
    (hnk : hasKeyJ fs k = false)
    (hal : lookupAligned fs vfs kvs) :
    lookupAligned fs vfs ((k, u) :: kvs) := by
  induction fs generalizing vfs with
  | nil =>
    cases vfs with
    | nil => trivial
    | cons kv vrest => exact hal.elim
  | cons kt rest ih =>
    obtain ⟨k1, t1⟩ := kt
    cases vfs with
    | nil => exact hal.elim
    | cons kv vrest =>
      obtain ⟨k1', v1⟩ := kv
      obtain ⟨hk, hlook, hal'⟩ := hal
      simp only [hasKeyJ, Bool.or_eq_false_iff, decide_eq_false_iff_not] at hnk
      have hne : ¬(k = k1) := fun h => hnk.1 h.symm
      refine ⟨hk, ?_, ih hnk.2 hal'⟩
      simp only [lookupU, if_neg hne]
      exact hlook

theorem lookupAligned_self (fs : List (String × JTy)) (vfs : List (String × TVal))
    (hnd : distinctKeysJ fs = true)
    (hc : conformsFields fs vfs = true) :
    lookupAligned fs vfs (marshalFields vfs) := by
  induction fs generalizing vfs with
  | nil =>
    cases vfs with
    | nil => trivial
    | cons kv vrest => simp [conformsFields] at hc
  | cons kt rest ih =>
    obtain ⟨k, t⟩ := kt
    cases vfs with
    | nil => simp [conformsFields] at hc
    | cons kv vrest =>
      obtain ⟨k', v⟩ := kv
      simp only [conformsFields, Bool.and_eq_true, decide_eq_true_eq] at hc
      obtain ⟨⟨hkk, hcv⟩, hcr⟩ := hc
      subst hkk
      simp only [distinctKeysJ, Bool.and_eq_true, Bool.not_eq_true'] at hnd
      refine ⟨rfl, ?_, ?_⟩
      · simp [marshalFields, lookupU]
      · exact lookupAligned_mono (marshal v) hnd.1 (ih vrest hnd.2 hcr)

mutual

/-- Round trip of the bridge on conforming values: decoding the encoding of
a value whose shape matches the (well-formed) type exactly yields the value
back. -/
theorem unmarshal_marshal (t : JTy) (x : TVal)
    (hw : wellFormedTy t = true) (hc : conforms t x = true) :
    unmarshal t (marshal x) = .ok x := by
  cases t with
  | strT => cases x <;> simp_all [conforms, marshal, unmarshal]
  | numT => cases x <;> simp_all [conforms, marshal, unmarshal]
  | boolT => cases x <;> simp_all [conforms, marshal, unmarshal]
  | listT e =>
    cases x with
    | tstr s => simp [conforms] at hc
    | tnum n => simp [conforms] at hc
    | tbool b => simp [conforms] at hc
    | tstruct fs => simp [conforms] at hc
    | tlist xs =>
      have hc' : conformsList e xs = true := by simpa [conforms] using hc
      have hw' : wellFormedTy e = true := by simpa [wellFormedTy] using hw
      simp [marshal, unmarshal, unmarshalList_marshalList e xs hw' hc']
  | structT fs =>
    cases x with
    | tstr s => simp [conforms] at hc
    | tnum n => simp [conforms] at hc
    | tbool b => simp [conforms] at hc
    | tlist xs => simp [conforms] at hc
    | tstruct vfs =>
      have hcf : conformsFields fs vfs = true := by simpa [conforms] using hc
      have hnd : distinctKeysJ fs = true := by
        simp only [wellFormedTy, Bool.and_eq_true] at hw
        exact hw.1
      have hwf : wellFormedFields fs = true := by
        simp only [wellFormedTy, Bool.and_eq_true] at hw
        exact hw.2
      have hal : lookupAligned fs vfs (marshalFields vfs) :=
        lookupAligned_self fs vfs hnd hcf
      simp [marshal, unmarshal,
        unmarshalFields_roundtrip fs vfs (marshalFields vfs) hwf hcf hal]

/-- Round trip for sequence elements. -/
theorem unmarshalList_marshalList (e : JTy) (xs : List TVal)
    (hw : wellFormedTy e = true) (hc : conformsList e xs = true) :
    unmarshalList e (marshalList xs) = .ok xs := by
  cases xs with
  | nil => simp [marshalList, unmarshalList]
  | cons x rest =>
    simp only [conformsList, Bool.and_eq_true] at hc
    simp [marshalList, unmarshalList, unmarshal_marshal e x hw hc.1,
      unmarshalList_marshalList e rest hw hc.2]

/-- Round trip for record fields, against any encoded object in which each
declared key looks up to the serialization of its value. -/
theorem unmarshalFields_roundtrip (fs : List (String × JTy))
    (vfs : List (String × TVal)) (kvs : List (String × UVal))
    (hwf : wellFormedFields fs = true)
    (hc : conformsFields fs vfs = true)
    (hal : lookupAligned fs vfs kvs) :
    unmarshalFields fs kvs = .ok vfs := by
  cases fs with
  | nil =>
    cases vfs with
    | nil => simp [unmarshalFields]
    | cons kv vrest => simp [conformsFields] at hc
  | cons kt rest =>
    obtain ⟨k, t⟩ := kt
    cases vfs with
    | nil => simp [conformsFields] at hc
    | cons kv vrest =>
      obtain ⟨k', v⟩ := kv
      simp only [conformsFields, Bool.and_eq_true, decide_eq_true_eq] at hc
      obtain ⟨⟨hkk, hcv⟩, hcr⟩ := hc
      subst hkk
      obtain ⟨_, hlook, hal'⟩ := hal
      simp only [wellFormedFields, Bool.and_eq_true] at hwf
      simp [unmarshalFields, hlook, unmarshal_marshal t v hwf.1 hcv,
        unmarshalFields_roundtrip rest vrest kvs hwf.2 hcr hal']

end

/-- Embeds Go `Convert(i1, i2)`: serialize the source value to the
intermediate encoding, then deserialize into the target slot (of shape
`t`), propagating the first error. -/
def Convert (t : JTy) (x : TVal) : Except String TVal :=
  unmarshal t (marshal x)

/-- C9: for every value whose shape matches the (well-formed) target type
exactly, `Convert(x, target)` followed by `Convert` of the result back
yields a value deep-equal to `x` — the round trip through the lossless
intermediate encoding is the identity. -/
theorem c9_convert_roundtrip (t : JTy) (x : TVal)
    (hw : wellFormedTy t = true) (hc : conforms t x = true) :
    (Convert t x).bind (fun y => Convert t y) = .ok x := by
  have h1 : Convert t x = .ok x := unmarshal_marshal t x hw hc
  rw [h1]
  simpa [Except.bind] using h1

/-- C9 witness: a one-field record round-trips through the bridge. -/
theorem c9_witness :
    (Convert (.structT [("a", .strT)]) (.tstruct [("a", .tstr "v")])).bind
        (fun y => Convert (.structT [("a", .strT)]) y)
      = .ok (.tstruct [("a", .tstr "v")]) :=
  c9_convert_roundtrip (.structT [("a", .strT)]) (.tstruct [("a", .tstr "v")])
    (by simp [wellFormedTy, wellFormedFields, distinctKeysJ, hasKeyJ])
    (by simp [conforms, conformsFields])
